import Mathlib

/-!
Verification development for the plush-image scraper.

The embedding below models the Python sources of the repository:
`src/get_images.py`, `src/run_bing_scraper.py`,
`src/image_scraper/image_scraper/pipelines.py` and
`src/image_scraper/image_scraper/spiders/bing_images.py`.
Python strings are modelled as lists of characters, dictionaries with
distinct keys as association lists in insertion order, raised exceptions
as `Except` values, and external collaborators (the HTTP transport, the
DDGS search client, the image decoder, Scrapy's base pipeline) as oracle
inputs recording their outcome for one call.
-/

namespace PlushScraper

/-- Python strings, modelled as lists of characters. -/
abbrev Str := List Char

/-- Characters removed by Python `str.strip()` (ASCII whitespace). -/
def isSpaceB (c : Char) : Bool :=
  c = ' ' || c = '\t' || c = '\n' || c = '\r' || c = '\x0b' || c = '\x0c'

/-- Right half of Python `s.strip()`: remove trailing whitespace. -/
def rstripList (s : Str) : Str :=
  (s.reverse.dropWhile isSpaceB).reverse

/-- Python `s.strip()`: remove leading and trailing whitespace. -/
def stripList (s : Str) : Str :=
  rstripList (s.dropWhile isSpaceB)

/-- Recursion core of Python `s.replace(pat, rep)`: scan left to right and
replace each non-overlapping occurrence of the nonempty pattern.  The `Nat`
argument is structural-recursion fuel, always called with the length of the
remaining string, so the `0` fallback branch is never taken. -/
def replaceGo (pat rep : Str) : Nat → Str → Str
  | _, [] => []
  | 0, s => s
  | n + 1, c :: rest =>
    if pat ≠ [] ∧ pat.isPrefixOf (c :: rest) then
      rep ++ replaceGo pat rep n ((c :: rest).drop pat.length)
    else
      c :: replaceGo pat rep n rest

/-- Python `s.replace(pat, rep)` for a nonempty pattern. -/
def replaceList (pat rep : Str) (s : Str) : Str :=
  replaceGo pat rep s.length s

/-- Python `s.split(sep)` for a one-character separator: the result is a
nonempty list of (possibly empty) parts. -/
def splitChar (sep : Char) : Str → List Str
  | [] => [[]]
  | c :: rest =>
    match splitChar sep rest with
    | [] => [[]]
    | h :: t => if c = sep then [] :: h :: t else (c :: h) :: t

/-- Python `s.split(sep)[-1]`: the final separator-delimited segment. -/
def lastSegment (sep : Char) (s : Str) : Str :=
  (splitChar sep s).getLastD []

/-- Python `str.lower()` on the ASCII range (filenames in this program). -/
def asciiLower (c : Char) : Char :=
  if 'A' ≤ c ∧ c ≤ 'Z' then Char.ofNat (c.toNat + 32) else c

/-- Lowercasing of a whole string, `f.lower()`. -/
def lowerStr (s : Str) : Str :=
  s.map asciiLower

/-- The string `"http"` of the scheme guard `url.startswith("http")`. -/
def httpL : Str := ['h', 't', 't', 'p']

/-- The pattern of `url.replace("\\u0026", "&")`: the six characters of the
escaped-ampersand sequence found in embedded JSON. -/
def uEscL : Str := ['\\', 'u', '0', '0', '2', '6']

/-- The replacement `"&"`. -/
def ampL : Str := ['&']

/-- The pattern of `url.replace("\\/", "/")`: a backslash-escaped slash. -/
def slashEscL : Str := ['\\', '/']

/-- The replacement `"/"`. -/
def slashL : Str := ['/']

/-- Outcome of `obj.get("murl") or obj.get("m")` on the JSON object parsed
from one `data-m` attribute in `_extract_image_urls`: the chained lookup is
either absent/falsy for both keys, a non-string value, or a string. -/
inductive MurlField where
  | missing : MurlField
  | nonString : MurlField
  | str : Str → MurlField
deriving DecidableEq

/-- One `a[data-m]` element as the extractor sees it: the attribute can be
missing or empty (`if not data_m: continue`); `json.loads` can raise
`json.JSONDecodeError`/`TypeError`, which the handler swallows
(`unparsable`); `json.loads` can succeed with a value that is not a JSON
object — e.g. `[1]`, `"s"`, `null` — so that `obj.get` raises an
`AttributeError` the handler does not catch (`nonObject`); or parsing
yields an object and the murl field lookup gives a `MurlField`. -/
inductive DataMAttr where
  | absent : DataMAttr
  | unparsable : DataMAttr
  | nonObject : DataMAttr
  | parsed : MurlField → DataMAttr
deriving DecidableEq

/-- One `img` element: its optional `data-src` and `src` attributes. -/
structure Img where
  dataSrc : Option Str
  src : Option Str
deriving DecidableEq

/-- One search-result page as `_extract_image_urls` consumes it: the capture
groups of the two `"murl"` regexes over `response.text`, the `a[data-m]`
elements, and the `img.mimg` / `img[data-src]` element selections, each in
document order. -/
structure Page where
  murlEscaped : List Str
  murlPlain : List Str
  dataM : List DataMAttr
  imgMimg : List Img
  imgDataSrc : List Img

/-- Strategy 1 (lines 85-89): decode `&` to `&`, strip, and accept
only URLs passing `url.startswith("http")`. -/
def candEscapedMurl (cap : Str) : Option Str :=
  let url := stripList (replaceList uEscL ampL cap)
  if httpL.isPrefixOf url then some url else none

/-- Strategy 2 (lines 90-94): unescape `\/`, strip; no further guard before
the dedup test. -/
def candPlainMurl (cap : Str) : Option Str :=
  some (stripList (replaceList slashEscL slashL cap))

/-- Strategy 3, one element (lines 97-109): an absent attribute is skipped
before the `try`; a `json.JSONDecodeError`/`TypeError` is caught and
skipped; a parse succeeding with a non-object makes `obj.get` raise an
`AttributeError` that the `except (json.JSONDecodeError, TypeError)`
handler does not catch, so it propagates (`Except.error`); otherwise the
murl field is accepted only when it is a string starting with `http`. -/
def candDataM : DataMAttr → Except Unit (Option Str)
  | DataMAttr.absent => Except.ok none
  | DataMAttr.unparsable => Except.ok none
  | DataMAttr.nonObject => Except.error ()
  | DataMAttr.parsed (MurlField.str s) =>
      Except.ok (if httpL.isPrefixOf s then some s else none)
  | DataMAttr.parsed _ => Except.ok none

/-- The URL yielded by one non-crashing `a[data-m]` element. -/
def candDataMOk : DataMAttr → Option Str
  | DataMAttr.parsed (MurlField.str s) =>
      if httpL.isPrefixOf s then some s else none
  | _ => none

/-- Python `a or b` for optional strings: the empty string is falsy. -/
def pyOrStr (a b : Option Str) : Option Str :=
  match a with
  | some s => if s ≠ [] then some s else b
  | none => b

/-- The guard `if url and url.startswith("http")`. -/
def checkUrl (u : Option Str) : Option Str :=
  match u with
  | some s => if s ≠ [] ∧ httpL.isPrefixOf s then some s else none
  | none => none

/-- Strategy 4 (lines 112-116): `img.attrib.get("data-src") or
img.attrib.get("src")` over `img.mimg` elements, guarded. -/
def candImgMimg (img : Img) : Option Str :=
  checkUrl (pyOrStr img.dataSrc img.src)

/-- Strategy 5 (lines 117-121): the broad sweep over `img[data-src]`. -/
def candImgDataSrc (img : Img) : Option Str :=
  checkUrl img.dataSrc

/-- Append a URL unless it was already collected; the Python `seen` set
always holds exactly the URLs accumulated in `urls`, so membership in the
accumulator models `url not in seen`. -/
def addUrl (urls : List Str) (u : Str) : List Str :=
  if urls.contains u then urls else urls ++ [u]

/-- One extraction loop: fold a strategy's candidate map over its element
list, appending each produced URL through the dedup guard. -/
def runStrategy {α : Type} (f : α → Option Str) (urls : List Str) (xs : List α) :
    List Str :=
  xs.foldl (fun acc x =>
    match f x with
    | some u => addUrl acc u
    | none => acc) urls

/-- The `a[data-m]` loop: like `runStrategy`, but a raised
`AttributeError` aborts the whole extraction at once, discarding the URLs
accumulated so far. -/
def runStrategyE {α : Type} (f : α → Except Unit (Option Str)) (urls : List Str) :
    List α → Except Unit (List Str)
  | [] => Except.ok urls
  | x :: rest =>
    match f x with
    | Except.error e => Except.error e
    | Except.ok none => runStrategyE f urls rest
    | Except.ok (some u) => runStrategyE f (addUrl urls u) rest

/-- `BingImagesSpider._extract_image_urls`: the five loops run in their
fixed source order over one shared `seen`/`urls` accumulator; an uncaught
`AttributeError` in the `a[data-m]` loop propagates out of the whole
function (`Except.error`), discarding the URLs collected so far, and
otherwise the two img loops finish and the list is returned. -/
def extractImageUrls (p : Page) : Except Unit (List Str) :=
  (runStrategyE candDataM
      (runStrategy candPlainMurl
        (runStrategy candEscapedMurl [] p.murlEscaped) p.murlPlain)
      p.dataM).map
    (fun u3 =>
      runStrategy candImgDataSrc (runStrategy candImgMimg u3 p.imgMimg)
        p.imgDataSrc)

/-- All URLs the five loops produce on a page where no `data-m` attribute
crashes the extractor, in strategy-priority order and document order
within a strategy, before deduplication. -/
def pageCandidates (p : Page) : List Str :=
  p.murlEscaped.filterMap candEscapedMurl ++
  p.murlPlain.filterMap candPlainMurl ++
  p.dataM.filterMap candDataMOk ++
  p.imgMimg.filterMap candImgMimg ++
  p.imgDataSrc.filterMap candImgDataSrc

/-- Keep the first occurrence of every string, preserving order. -/
def dedupFirst (l : List Str) : List Str :=
  l.foldl addUrl []

theorem runStrategy_eq_foldl {α : Type} (f : α → Option Str) (urls : List Str)
    (xs : List α) : runStrategy f urls xs = (xs.filterMap f).foldl addUrl urls := by
  induction xs generalizing urls with
  | nil => rfl
  | cons x xs ih =>
    simp only [runStrategy, List.foldl_cons, List.filterMap_cons] at *
    cases hfx : f x with
    | none => simp only [hfx, ih]
    | some u => simp only [hfx, List.foldl_cons, ih]

theorem mem_addUrl (urls : List Str) (a u : Str) :
    u ∈ addUrl urls a ↔ u ∈ urls ∨ u = a := by
  unfold addUrl
  split
  · rename_i hc
    have ha : a ∈ urls := by simpa using hc
    constructor
    · exact fun h => Or.inl h
    · rintro (h | rfl)
      · exact h
      · exact ha
  · simp [or_comm]

theorem mem_foldl_addUrl (l : List Str) (urls : List Str) (u : Str) :
    u ∈ l.foldl addUrl urls ↔ u ∈ urls ∨ u ∈ l := by
  induction l generalizing urls with
  | nil => simp
  | cons a l ih =>
    simp only [List.foldl_cons, ih, mem_addUrl, List.mem_cons]
    tauto

theorem nodup_addUrl (urls : List Str) (a : Str) (h : urls.Nodup) :
    (addUrl urls a).Nodup := by
  unfold addUrl
  split
  · exact h
  · rename_i hc
    have ha : a ∉ urls := by simpa using hc
    simpa using List.Nodup.concat ha h

theorem nodup_foldl_addUrl (l : List Str) (urls : List Str) (h : urls.Nodup) :
    (l.foldl addUrl urls).Nodup := by
  induction l generalizing urls with
  | nil => exact h
  | cons a l ih => exact ih _ (nodup_addUrl _ _ h)

theorem runStrategy_cons {α : Type} (f : α → Option Str) (urls : List Str)
    (x : α) (rest : List α) :
    runStrategy f urls (x :: rest) =
      match f x with
      | some u => runStrategy f (addUrl urls u) rest
      | none => runStrategy f urls rest := by
  cases hfx : f x <;> simp [runStrategy, List.foldl_cons, hfx]

theorem runStrategyE_cons {α : Type} (f : α → Except Unit (Option Str))
    (urls : List Str) (x : α) (rest : List α) :
    runStrategyE f urls (x :: rest) =
      match f x with
      | Except.error e => Except.error e
      | Except.ok none => runStrategyE f urls rest
      | Except.ok (some u) => runStrategyE f (addUrl urls u) rest := rfl

theorem candDataM_eq_ok (a : DataMAttr) (h : a ≠ DataMAttr.nonObject) :
    candDataM a = Except.ok (candDataMOk a) := by
  cases a with
  | absent => rfl
  | unparsable => rfl
  | nonObject => exact absurd rfl h
  | parsed f =>
    cases f with
    | missing => rfl
    | nonString => rfl
    | str s => rfl

theorem runStrategyE_eq_ok {α : Type} (f : α → Except Unit (Option Str))
    (g : α → Option Str) (xs : List α) (hfg : ∀ a ∈ xs, f a = Except.ok (g a)) :
    ∀ urls, runStrategyE f urls xs = Except.ok (runStrategy g urls xs) := by
  induction xs with
  | nil => intro urls; rfl
  | cons x rest ih =>
    intro urls
    have hx := hfg x (List.mem_cons_self x rest)
    have hrest : ∀ a ∈ rest, f a = Except.ok (g a) :=
      fun a ha => hfg a (List.mem_cons_of_mem x ha)
    rw [runStrategyE_cons, hx, runStrategy_cons]
    cases hgx : g x with
    | none => exact ih hrest urls
    | some u => exact ih hrest (addUrl urls u)

theorem runStrategyE_error {α : Type} (f : α → Except Unit (Option Str))
    (xs : List α) : ∀ urls, (∃ a ∈ xs, f a = Except.error ()) →
      runStrategyE f urls xs = Except.error () := by
  induction xs with
  | nil =>
    rintro urls ⟨a, ha, _⟩
    exact absurd ha (List.not_mem_nil a)
  | cons x rest ih =>
    rintro urls ⟨a, ha, hfa⟩
    rw [runStrategyE_cons]
    cases hfx : f x with
    | error e =>
      cases e
      rfl
    | ok o =>
      cases o with
      | none =>
        rcases List.mem_cons.mp ha with rfl | ha'
        · rw [hfx] at hfa
          exact absurd hfa (by simp)
        · exact ih urls ⟨a, ha', hfa⟩
      | some u =>
        rcases List.mem_cons.mp ha with rfl | ha'
        · rw [hfx] at hfa
          exact absurd hfa (by simp)
        · exact ih (addUrl urls u) ⟨a, ha', hfa⟩

theorem extract_error_of_crash (p : Page)
    (h : ∃ a ∈ p.dataM, a = DataMAttr.nonObject) :
    extractImageUrls p = Except.error () := by
  obtain ⟨a, ha, rfl⟩ := h
  unfold extractImageUrls
  rw [runStrategyE_error candDataM p.dataM _
    ⟨DataMAttr.nonObject, ha, rfl⟩]
  rfl

theorem extract_ok_of_no_crash (p : Page)
    (h : ∀ a ∈ p.dataM, a ≠ DataMAttr.nonObject) :
    extractImageUrls p = Except.ok (dedupFirst (pageCandidates p)) := by
  unfold extractImageUrls
  rw [runStrategyE_eq_ok candDataM candDataMOk p.dataM
    (fun a ha => candDataM_eq_ok a (h a ha))]
  unfold pageCandidates dedupFirst
  simp only [Except.map, runStrategy_eq_foldl, List.foldl_append]

theorem extract_ok_inv (p : Page) (urls : List Str)
    (h : extractImageUrls p = Except.ok urls) :
    urls = dedupFirst (pageCandidates p) := by
  have hnc : ∀ a ∈ p.dataM, a ≠ DataMAttr.nonObject := by
    intro a ha hEq
    subst hEq
    have herr : extractImageUrls p = Except.error () :=
      extract_error_of_crash p ⟨DataMAttr.nonObject, ha, rfl⟩
    rw [herr] at h
    exact Except.noConfusion h
  have hok := extract_ok_of_no_crash p hnc
  rw [h] at hok
  exact Except.ok.inj hok

example : replaceList uEscL ampL "http://a?b\\u0026c=1".toList =
    "http://a?b&c=1".toList := by decide

example : stripList "  x y ".toList = "x y".toList := by decide

example :
    extractImageUrls
      ⟨["http://e\\u0026f".toList],
       ["http://e\\u0026f".toList, "http://a".toList],
       [DataMAttr.parsed (MurlField.str "http://a".toList), DataMAttr.unparsable],
       [⟨some "http://b".toList, none⟩],
       [⟨some "http://b".toList, none⟩, ⟨some "ftp://c".toList, none⟩]⟩ =
    Except.ok
      ["http://e&f".toList, "http://e\\u0026f".toList, "http://a".toList,
       "http://b".toList] := rfl

example :
    extractImageUrls
      ⟨["http://e\\u0026f".toList], [],
       [DataMAttr.parsed (MurlField.str "http://a".toList), DataMAttr.nonObject],
       [⟨some "http://b".toList, none⟩], []⟩ = Except.error () := rfl

/-- C1 (code bug in the `a[data-m]` loop): on every page where no `data-m`
attribute holds valid non-object JSON, `_extract_image_urls` applies its
four strategies in their fixed source order and returns their accepted
URLs deduplicated by exact string in first-seen order, duplicate-free, and
`[]` when no strategy yields anything; but on a `data-m` attribute whose
JSON parses to a non-object (e.g. `[1]`) the lookup `obj.get` raises an
`AttributeError` that the `except (json.JSONDecodeError, TypeError)`
handler does not catch, so the function raises instead of returning a
list — the code violates the claim's never-an-error conjunct. -/
theorem c1_extract_dedup_first_seen (p : Page) :
    extractImageUrls ⟨[], [], [DataMAttr.nonObject], [], []⟩ = Except.error () ∧
    ((∀ a ∈ p.dataM, a ≠ DataMAttr.nonObject) →
      extractImageUrls p = Except.ok (dedupFirst (pageCandidates p))) ∧
    (∀ urls, extractImageUrls p = Except.ok urls →
      urls.Nodup ∧ (pageCandidates p = [] → urls = [])) := by
  refine ⟨?_, extract_ok_of_no_crash p, ?_⟩
  · exact extract_error_of_crash _ ⟨DataMAttr.nonObject, by simp, rfl⟩
  · intro urls hok
    have hurls := extract_ok_inv p urls hok
    subst hurls
    refine ⟨nodup_foldl_addUrl _ _ List.nodup_nil, fun hc => ?_⟩
    unfold dedupFirst
    rw [hc]
    rfl

/-- C1 witness: a concrete page whose strategies all yield nothing without
crashing (an unparsable `data-m` attribute, an `img` with no attributes)
produces the empty list, not an error. -/
theorem c1_extract_dedup_first_seen_witness :
    extractImageUrls ⟨[], [], [DataMAttr.unparsable], [⟨none, none⟩], []⟩ =
      Except.ok [] := by
  have h := (c1_extract_dedup_first_seen
    ⟨[], [], [DataMAttr.unparsable], [⟨none, none⟩], []⟩).2.1 (by decide)
  have hX : dedupFirst (pageCandidates
      ⟨[], [], [DataMAttr.unparsable], [⟨none, none⟩], []⟩) = [] := by decide
  rw [hX] at h
  exact h

theorem http_shape {s : Str} (h : httpL.isPrefixOf s) :
    ∃ t, s = 'h' :: 't' :: 't' :: 'p' :: t := by
  rw [List.isPrefixOf_iff_prefix] at h
  obtain ⟨t, ht⟩ := h
  exact ⟨t, ht.symm⟩

theorem replaceList_cons_of_not_match (pat rep : Str) (c : Char) (rest : Str)
    (h : ¬ pat.isPrefixOf (c :: rest)) :
    replaceList pat rep (c :: rest) = c :: replaceList pat rep rest := by
  unfold replaceList
  simp only [List.length_cons, replaceGo]
  rw [if_neg]
  tauto

theorem not_match_of_head_ne (p c : Char) (ps rest : Str) (h : p ≠ c) :
    ¬ (p :: ps).isPrefixOf (c :: rest) := by
  intro hc
  rw [List.isPrefixOf_iff_prefix] at hc
  obtain ⟨t, ht⟩ := hc
  rw [List.cons_append] at ht
  exact h (List.cons.inj ht).1

theorem replaceList_http (rep ps : Str) (s : Str) (h : httpL.isPrefixOf s) :
    ∃ t, replaceList ('\\' :: ps) rep s = 'h' :: 't' :: 't' :: 'p' :: t := by
  obtain ⟨t, rfl⟩ := http_shape h
  rw [replaceList_cons_of_not_match _ _ _ _ (not_match_of_head_ne _ _ _ _ (by decide)),
    replaceList_cons_of_not_match _ _ _ _ (not_match_of_head_ne _ _ _ _ (by decide)),
    replaceList_cons_of_not_match _ _ _ _ (not_match_of_head_ne _ _ _ _ (by decide)),
    replaceList_cons_of_not_match _ _ _ _ (not_match_of_head_ne _ _ _ _ (by decide))]
  exact ⟨replaceList ('\\' :: ps) rep t, rfl⟩

theorem dropWhile_eq_self_of_all (p : Char → Bool) (l : Str)
    (h : ∀ c ∈ l, p c = false) : l.dropWhile p = l := by
  cases l with
  | nil => rfl
  | cons a l => simp [List.dropWhile_cons, h a (List.mem_cons_self a l)]

theorem rstrip_append (l₁ l₂ : Str) (h : ∀ c ∈ l₁, isSpaceB c = false) :
    rstripList (l₁ ++ l₂) = l₁ ++ rstripList l₂ := by
  unfold rstripList
  rw [List.reverse_append, List.dropWhile_append]
  split
  · rename_i hEmp
    have h2 : List.dropWhile isSpaceB l₂.reverse = [] := by
      simpa [List.isEmpty_iff] using hEmp
    rw [dropWhile_eq_self_of_all _ _ (fun c hc => h c (by simpa using hc))]
    simp [h2]
  · simp

theorem strip_http (t : Str) :
    httpL.isPrefixOf (stripList ('h' :: 't' :: 't' :: 'p' :: t)) := by
  unfold stripList
  have h1 : List.dropWhile isSpaceB ('h' :: 't' :: 't' :: 'p' :: t) =
      'h' :: 't' :: 't' :: 'p' :: t := by
    simp [List.dropWhile_cons, isSpaceB]
  rw [h1]
  have h2 : ('h' :: 't' :: 't' :: 'p' :: t) = httpL ++ t := rfl
  rw [h2, rstrip_append httpL t (by decide), List.isPrefixOf_iff_prefix]
  exact List.prefix_append _ _

theorem candEscapedMurl_http {cap u : Str} (h : candEscapedMurl cap = some u) :
    httpL.isPrefixOf u := by
  simp only [candEscapedMurl] at h
  split at h
  · rename_i hc
    cases h
    exact hc
  · exact Option.noConfusion h

theorem candPlainMurl_http {cap u : Str} (hcap : httpL.isPrefixOf cap)
    (h : candPlainMurl cap = some u) : httpL.isPrefixOf u := by
  simp only [candPlainMurl, Option.some.injEq] at h
  obtain ⟨t, ht⟩ := replaceList_http slashL ['/'] cap hcap
  rw [← h, show slashEscL = '\\' :: ['/'] from rfl, ht]
  exact strip_http t

theorem candDataMOk_http {a : DataMAttr} {u : Str} (h : candDataMOk a = some u) :
    httpL.isPrefixOf u := by
  unfold candDataMOk at h
  split at h
  · rename_i s
    split at h
    · rename_i hc
      cases h
      exact hc
    · exact Option.noConfusion h
  · exact Option.noConfusion h

theorem checkUrl_http {o : Option Str} {u : Str} (h : checkUrl o = some u) :
    httpL.isPrefixOf u := by
  unfold checkUrl at h
  split at h
  · split at h
    · rename_i hc
      cases h
      exact hc.2
    · exact Option.noConfusion h
  · exact Option.noConfusion h

/-- C10: every URL in a list returned by `_extract_image_urls` starts
with `http` (a page that makes the extractor raise returns no list, so
the invariant is stated over the successful extractions).  Strategies 1,
3, 4 and 5 test `startswith("http")` explicitly; strategy 2 has no
explicit test, but its regex capture group `(https?://[^"]+)` can only
match text starting with `http`, which the hypothesis `hshape` records,
and the subsequent `\/`-unescaping and strip preserve that prefix. -/
theorem c10_urls_start_with_http (p : Page)
    (hshape : ∀ s ∈ p.murlPlain, httpL.isPrefixOf s) :
    ∀ urls, extractImageUrls p = Except.ok urls →
      ∀ u ∈ urls, httpL.isPrefixOf u := by
  intro urls hok u hu
  rw [extract_ok_inv p urls hok] at hu
  unfold dedupFirst at hu
  rw [mem_foldl_addUrl] at hu
  rcases hu with h | h
  · exact absurd h (List.not_mem_nil u)
  · unfold pageCandidates at h
    simp only [List.mem_append, List.mem_filterMap] at h
    rcases h with ((((⟨c, _, he⟩ | ⟨c, hc, he⟩) | ⟨c, _, he⟩) | ⟨c, _, he⟩) | ⟨c, _, he⟩)
    · exact candEscapedMurl_http he
    · exact candPlainMurl_http (hshape c hc) he
    · exact candDataMOk_http he
    · exact checkUrl_http he
    · exact checkUrl_http he

/-- C10 witness: a page whose only yield is a `data-m` URL; the extraction
succeeds and the returned URL starts with `http`. -/
theorem c10_urls_start_with_http_witness :
    httpL.isPrefixOf "http://x".toList :=
  c10_urls_start_with_http
    ⟨[], [], [DataMAttr.parsed (MurlField.str "http://x".toList)], [], []⟩
    (by simp) ["http://x".toList] rfl "http://x".toList (by decide)

/-- `AnimalImagesPipeline.get_media_requests` line 52: capacity left for
one animal, `remaining = max(0, max_per_animal - current)`. -/
def remainingCap (maxPerAnimal current : Int) : Int :=
  max 0 (maxPerAnimal - current)

/-- `AnimalImagesPipeline.get_media_requests` lines 53-54: the admitted
URLs, Python `urls[:remaining]` with the slice bound never negative. -/
def get_media_requests (urls : List Str) (maxPerAnimal current : Int) : List Str :=
  urls.take (remainingCap maxPerAnimal current).toNat

/-- C2: the remaining capacity computed before admitting candidates equals
`max(0, max_total - current_count)`; admission yields exactly the prefix
`candidate_urls[:remaining]`, hence never more than `remaining` requests,
and zero requests whenever `current_count >= max_total`. -/
theorem c2_capacity_and_admission (urls : List Str) (maxPerAnimal current : Int) :
    remainingCap maxPerAnimal current = max 0 (maxPerAnimal - current) ∧
    get_media_requests urls maxPerAnimal current =
      urls.take (max 0 (maxPerAnimal - current)).toNat ∧
    (get_media_requests urls maxPerAnimal current).length ≤
      (remainingCap maxPerAnimal current).toNat ∧
    (maxPerAnimal ≤ current → get_media_requests urls maxPerAnimal current = []) := by
  refine ⟨rfl, rfl, ?_, ?_⟩
  · unfold get_media_requests
    exact List.length_take_le _ _
  · intro h
    unfold get_media_requests remainingCap
    have hz : max 0 (maxPerAnimal - current) = 0 := by omega
    rw [hz]
    rfl

/-- C2 witness: three candidates, capacity 5 with 5 already stored, zero
admitted. -/
theorem c2_capacity_and_admission_witness :
    get_media_requests ["a".toList, "b".toList, "c".toList] 5 5 = [] :=
  (c2_capacity_and_admission ["a".toList, "b".toList, "c".toList] 5 5).2.2.2
    (by decide)

/-- One record of the `images` list handed to `download_images`, together
with the outcome of each external call made for it: the HTTP GET plus
`raise_for_status` (a raised `requests.exceptions.RequestException` is
`Except.error` with its message), the `Image.open` decode, and the
`pil_image.save` write. -/
structure ImageRec where
  image : Str
  fetchResult : Except Str Unit
  decodeResult : Except Str Unit
  saveResult : Except Str Unit

/-- `filename = url.split("/")[-1]` (get_images.py line 99): the stored
filename is always the final `/`-delimited segment of the source URL. -/
def downloadFilename (url : Str) : Str :=
  lastSegment '/' url

/-- The observable effect of one loop iteration of `download_images`: a
file saved at a path, or a logged-and-dropped failure carrying the URL and
the exception message (`logger.error("Error downloading %s: %s", ...)`). -/
inductive ItemOutcome where
  | saved : Str → ItemOutcome
  | failedRequest : Str → Str → ItemOutcome
  | failedOther : Str → Str → ItemOutcome
deriving DecidableEq

/-- One iteration of `download_images` (get_images.py lines 96-111): the
path is `folder / url.split("/")[-1]`; `except RequestException` catches
transport and non-2xx failures, `except Exception` catches everything else
(undecodable payload, save error); both log and drop the item. -/
def downloadOne (folder : Str) (img : ImageRec) : ItemOutcome :=
  let url := img.image
  let filename := downloadFilename url
  let path := folder ++ '/' :: filename
  match img.fetchResult with
  | Except.error m => ItemOutcome.failedRequest url m
  | Except.ok _ =>
    match img.decodeResult with
    | Except.error m => ItemOutcome.failedOther url m
    | Except.ok _ =>
      match img.saveResult with
      | Except.error m => ItemOutcome.failedOther url m
      | Except.ok _ => ItemOutcome.saved path

/-- `download_images` (get_images.py lines 77-111): the loop over the
batch, collecting each item's outcome. -/
def download_images (folder : Str) (images : List ImageRec) : List ItemOutcome :=
  images.foldl (fun acc img => acc ++ [downloadOne folder img]) []

theorem foldl_append_eq {α β : Type} (f : α → List β) (l : List α) (acc : List β) :
    l.foldl (fun a x => a ++ f x) acc = acc ++ l.flatMap f := by
  induction l generalizing acc with
  | nil => simp
  | cons x l ih => simp [List.foldl_cons, ih]

theorem flatMap_singleton_eq_map {α β : Type} (f : α → β) (l : List α) :
    (l.flatMap fun x => [f x]) = l.map f := by
  induction l with
  | nil => rfl
  | cons x l ih => simp [List.flatMap_cons, ih]

/-- C5: every item of a batch gets exactly one outcome, computed from that
item alone; a failing item (transport failure, non-2xx, undecodable
payload, save error) produces a logged `failed` outcome while the items
before and after it are still processed, and `download_images` is a total
function — no error propagates out of the batch loop. -/
theorem c5_failures_are_per_item (folder : Str) (images : List ImageRec) :
    download_images folder images = images.map (downloadOne folder) ∧
    (download_images folder images).length = images.length ∧
    (∀ pre img post,
      download_images folder (pre ++ img :: post) =
        download_images folder pre ++ downloadOne folder img ::
          download_images folder post) := by
  have hmap : ∀ l : List ImageRec,
      download_images folder l = l.map (downloadOne folder) := by
    intro l
    unfold download_images
    rw [foldl_append_eq, flatMap_singleton_eq_map]
    rfl
  refine ⟨hmap images, by rw [hmap]; exact List.length_map _ _, ?_⟩
  intro pre img post
  simp [hmap]

/-- `search_images` (get_images.py lines 157-171): `DDGS.images` either
returns a result list or raises `DDGSException`; the handler logs a
warning for the query and returns the empty list, so the error never
escapes. -/
def search_images {α : Type} (outcome : Except Str (List α)) : List α :=
  match outcome with
  | Except.ok images => images
  | Except.error _ => []

/-- The per-animal search loop of `get_images` (lines 183-187): start from
`[]` and `extend` with each query's results. -/
def searchAnimal {α : Type} (outcomes : List (Except Str (List α))) : List α :=
  outcomes.foldl (fun acc o => acc ++ search_images o) []

/-- C9: a provider-level `DDGSException` makes `search_images` return the
empty list, and in the per-animal loop such a query contributes zero
results: the accumulated list is the same as if the failing query were
absent, so the error is never propagated to the caller. -/
theorem c9_provider_error_contributes_nothing {α : Type} (e : Str)
    (pre post : List (Except Str (List α))) :
    search_images (Except.error e : Except Str (List α)) = [] ∧
    searchAnimal (pre ++ Except.error e :: post) = searchAnimal (pre ++ post) := by
  refine ⟨rfl, ?_⟩
  unfold searchAnimal
  rw [foldl_append_eq, foldl_append_eq]
  simp [search_images]

/-- The static `ANIMALS_LIST` of get_images.py (22 categories). -/
def ANIMALS_LIST : List Str :=
  ["cat", "dog", "bear", "wolf", "fox", "rabbit", "snake", "tiger", "lion",
   "elephant", "panda", "koala", "whale", "dolphin", "shark", "octopus",
   "squid", "crab", "lobster", "shrimp", "sea turtle", "sea horse"].map
    String.toList

/-- The static `PLUSH_LIST` of get_images.py (5 synonym terms). -/
def PLUSH_LIST : List Str :=
  ["stuffed animal", "plushie", "plush toy", "stuffed toy", "plush"].map
    String.toList

/-- `MAX_RESULTS = 1000` of get_images.py. -/
def MAX_RESULTS : Nat := 1000

/-- Inner loop of `make_queries`: for each synonym append the two orders
`f"{animal} {plush}"` then `f"{plush} {animal}"`. -/
def queriesForAnimal (animal : Str) (plushes : List Str) : List Str :=
  plushes.foldl
    (fun acc plush => acc ++ [animal ++ ' ' :: plush, plush ++ ' ' :: animal]) []

/-- `make_queries` (get_images.py lines 57-75; run_bing_scraper.py lines
45-62 is the same function over its own animal list): the queries dict as
an association list in insertion order. -/
def make_queries (animals plushes : List Str) : List (Str × List Str) :=
  animals.foldl
    (fun acc animal => acc ++ [(animal, queriesForAnimal animal plushes)]) []

/-- `num_results = MAX_RESULTS // len(queries)` (get_images.py line 184);
Python's ZeroDivisionError is modelled as `Except.error`. -/
def numResultsFor (total queryCount : Nat) : Except Unit Nat :=
  if queryCount = 0 then Except.error () else Except.ok (total / queryCount)

theorem queriesForAnimal_eq (animal : Str) (plushes : List Str) :
    queriesForAnimal animal plushes =
      plushes.flatMap
        (fun plush => [animal ++ ' ' :: plush, plush ++ ' ' :: animal]) := by
  unfold queriesForAnimal
  rw [foldl_append_eq]
  rfl

theorem length_queriesForAnimal (animal : Str) (plushes : List Str) :
    (queriesForAnimal animal plushes).length = 2 * plushes.length := by
  rw [queriesForAnimal_eq]
  induction plushes with
  | nil => rfl
  | cons p l ih =>
    simp only [List.flatMap_cons, List.length_append, List.length_cons, ih,
      List.length_nil, List.length_cons]
    omega

theorem make_queries_eq (animals plushes : List Str) :
    make_queries animals plushes =
      animals.map (fun a => (a, queriesForAnimal a plushes)) := by
  unfold make_queries
  rw [foldl_append_eq, flatMap_singleton_eq_map]
  rfl

/-- C4: for every category and synonym list of length `k`, the planner
produces exactly `2k` queries — for each synonym, first
`"{category} {synonym}"` then `"{synonym} {category}"`, in generation
order — and the per-query budget `total // (2k)` satisfies
`budget * 2k <= total`; with a nonempty synonym list the division branch
returns that budget rather than an error. -/
theorem c4_two_queries_per_synonym (animal : Str) (plushes : List Str) (total : Nat) :
    queriesForAnimal animal plushes =
      plushes.flatMap
        (fun plush => [animal ++ ' ' :: plush, plush ++ ' ' :: animal]) ∧
    (queriesForAnimal animal plushes).length = 2 * plushes.length ∧
    (total / (2 * plushes.length)) * (2 * plushes.length) ≤ total ∧
    (plushes ≠ [] →
      numResultsFor total (queriesForAnimal animal plushes).length =
        Except.ok (total / (2 * plushes.length))) := by
  refine ⟨queriesForAnimal_eq animal plushes, length_queriesForAnimal animal plushes,
    Nat.div_mul_le_self total _, ?_⟩
  intro hne
  rw [length_queriesForAnimal]
  unfold numResultsFor
  rw [if_neg]
  intro hz
  rcases plushes with _ | ⟨p, l⟩
  · exact hne rfl
  · simp at hz

/-- C4 witness: the real configuration — `"cat"` with the five synonyms
and the budget of 1000 — yields 10 queries and a per-query budget of 100,
and `100 * 10 ≤ 1000`. -/
theorem c4_two_queries_per_synonym_witness :
    numResultsFor MAX_RESULTS (queriesForAnimal ("cat".toList) PLUSH_LIST).length =
      Except.ok 100 := by
  have h := (c4_two_queries_per_synonym ("cat".toList) PLUSH_LIST MAX_RESULTS).2.2.2
    (by decide)
  simpa using h

/-- C7: every category in `get_images` receives `2 * len(PLUSH_LIST) = 10`
queries from `make_queries`, so no category has an empty query list (the
claim's skip case is vacuous) and the division
`MAX_RESULTS // len(queries)` is never evaluated with a zero count: its
ZeroDivisionError branch is unreachable and each category's budget is
`1000 // 10 = 100`. -/
theorem c7_no_zero_query_division :
    (∀ p ∈ make_queries ANIMALS_LIST PLUSH_LIST,
      p.2 ≠ [] ∧ numResultsFor MAX_RESULTS p.2.length = Except.ok 100) ∧
    (∀ animals plushes : List Str, ∀ p ∈ make_queries animals plushes,
      p.2.length = 2 * plushes.length) := by
  have hgen : ∀ animals plushes : List Str, ∀ p ∈ make_queries animals plushes,
      p.2.length = 2 * plushes.length := by
    intro animals plushes p hp
    rw [make_queries_eq] at hp
    obtain ⟨a, _, rfl⟩ := List.mem_map.mp hp
    exact length_queriesForAnimal a plushes
  refine ⟨?_, hgen⟩
  intro p hp
  have hlen : p.2.length = 10 := by
    have := hgen ANIMALS_LIST PLUSH_LIST p hp
    simpa [PLUSH_LIST] using this
  constructor
  · intro hnil
    rw [hnil] at hlen
    simp at hlen
  · rw [hlen]
    rfl

/-- C7 witness: the category `"dog"` has a nonempty query list and gets
the per-query budget 100 with no division error. -/
theorem c7_no_zero_query_division_witness :
    ("dog".toList, queriesForAnimal ("dog".toList) PLUSH_LIST).2 ≠ [] ∧
    numResultsFor MAX_RESULTS
      (queriesForAnimal ("dog".toList) PLUSH_LIST).length = Except.ok 100 :=
  c7_no_zero_query_division.1
    (("dog".toList), queriesForAnimal ("dog".toList) PLUSH_LIST) (by decide)

/-- `AnimalImagesPipeline.file_path` (pipelines.py lines 56-90):
`subfolder = animal.replace(" ", "_")`; `basePath` is the path returned by
the Scrapy base class (an external collaborator, of the shape
`full/<sha1(url)>.jpg`); the stored path is `subfolder/<last segment of
basePath>`. -/
def file_path (animal basePath : Str) : Str :=
  let subfolder := replaceList [' '] ['_'] animal
  let name := if basePath.contains '/' then lastSegment '/' basePath else basePath
  subfolder ++ '/' :: name

theorem splitChar_cons (sep c : Char) (rest : Str) :
    splitChar sep (c :: rest) =
      match splitChar sep rest with
      | [] => [[]]
      | h :: t => if c = sep then [] :: h :: t else (c :: h) :: t := rfl

theorem splitChar_ne_nil (sep : Char) (s : Str) : splitChar sep s ≠ [] := by
  cases s with
  | nil => simp [splitChar]
  | cons c rest =>
    rw [splitChar_cons sep c rest]
    cases hsp : splitChar sep rest with
    | nil => simp
    | cons h' t => by_cases hc : c = sep <;> simp [hc]

theorem splitChar_append_sep (sep : Char) (xs ys : Str) :
    splitChar sep (xs ++ sep :: ys) = splitChar sep xs ++ splitChar sep ys := by
  induction xs with
  | nil =>
    rw [List.nil_append]
    cases hsp : splitChar sep ys with
    | nil => exact absurd hsp (splitChar_ne_nil sep ys)
    | cons h t =>
      rw [splitChar_cons sep sep ys, hsp]
      simp [splitChar]
  | cons x xs ih =>
    cases hsx : splitChar sep xs with
    | nil => exact absurd hsx (splitChar_ne_nil _ _)
    | cons h' t' =>
      have hiy : splitChar sep (xs ++ sep :: ys) = h' :: (t' ++ splitChar sep ys) := by
        rw [ih, hsx, List.cons_append]
      show splitChar sep (x :: (xs ++ sep :: ys)) =
        splitChar sep (x :: xs) ++ splitChar sep ys
      rw [splitChar_cons sep x (xs ++ sep :: ys), hiy, splitChar_cons sep x xs, hsx]
      by_cases hc : x = sep <;> simp [hc]

theorem splitChar_no_sep (sep : Char) (s : Str) (h : sep ∉ s) :
    splitChar sep s = [s] := by
  induction s with
  | nil => rfl
  | cons c rest ih =>
    have hc : c ≠ sep := fun hh => h (hh ▸ List.mem_cons_self c rest)
    have hr : sep ∉ rest := fun hh => h (List.mem_cons_of_mem c hh)
    rw [splitChar_cons sep c rest, ih hr]
    simp [hc]

theorem getLastD_append {α : Type} (a b : List α) (d : α) (h : b ≠ []) :
    (a ++ b).getLastD d = b.getLastD d := by
  rw [List.getLastD_eq_getLast?, List.getLastD_eq_getLast?,
    List.getLast?_append_of_ne_nil a h]

theorem lastSegment_append (xs ys : Str) (h : ('/' : Char) ∉ ys) :
    lastSegment '/' (xs ++ '/' :: ys) = ys := by
  unfold lastSegment
  rw [splitChar_append_sep, getLastD_append _ _ _ (splitChar_ne_nil _ _),
    splitChar_no_sep _ _ h]
  rfl

theorem lastSegment_no_sep (s : Str) (h : ('/' : Char) ∉ s) :
    lastSegment '/' s = s := by
  unfold lastSegment
  rw [splitChar_no_sep _ _ h]
  rfl

/-- The fallback half of claim C6, modelled from the spec: when the URL
has no usable final `/`-delimited segment, a content hash is used as the
filename instead.  Whatever hash function is meant, a hash-derived
filename is a nonempty digest string, so at this URL the claim entails at
minimum that the stored filename is nonempty. -/
def c6HashFallbackAt (url : Str) : Prop :=
  lastSegment '/' url = [] → downloadFilename url ≠ []

/-- C6 counterexample: `"http://a.com/"` has an empty final segment, yet
`download_images` still uses `url.split("/")[-1]` — the empty string — as
the filename; no hash fallback exists in the code. -/
theorem c6_counterexample : ¬ c6HashFallbackAt ("http://a.com/".toList) :=
  fun h => (h (by decide)) (by decide)

/-- C6 (amended): in `download_images` the stored filename is always the
final `/`-delimited segment of the source URL (even when that segment is
empty — there is no hash fallback; the empty-segment save then fails and
the item is dropped), and in `AnimalImagesPipeline.file_path` the filename
is the final segment of the path supplied by the Scrapy base class (a
URL-hash-derived `<sha1>.jpg` name), not a segment of the source URL. -/
theorem c6_filename_is_final_segment (url xs ys animal : Str) :
    downloadFilename url = lastSegment '/' url ∧
    (('/' : Char) ∉ url → downloadFilename url = url) ∧
    (('/' : Char) ∉ ys → downloadFilename (xs ++ '/' :: ys) = ys) ∧
    (('/' : Char) ∉ ys →
      file_path animal (xs ++ '/' :: ys) =
        replaceList [' '] ['_'] animal ++ '/' :: ys) := by
  refine ⟨rfl, fun h => lastSegment_no_sep url h,
    fun h => lastSegment_append xs ys h, fun h => ?_⟩
  unfold file_path
  have hmem : ('/' : Char) ∈ xs ++ '/' :: ys := by simp
  rw [if_pos (List.elem_eq_true_of_mem hmem), lastSegment_append xs ys h]

/-- C6 amended-claim witness: concrete URL and base path. -/
theorem c6_filename_is_final_segment_witness :
    downloadFilename ("http://h".toList ++ '/' :: "a.jpg".toList) =
      "a.jpg".toList ∧
    file_path ("cat".toList) ("full".toList ++ '/' :: "x.jpg".toList) =
      replaceList [' '] ['_'] ("cat".toList) ++ '/' :: "x.jpg".toList :=
  ⟨(c6_filename_is_final_segment [] ("http://h".toList) ("a.jpg".toList)
      []).2.2.1 (by decide),
   (c6_filename_is_final_segment [] ("full".toList) ("x.jpg".toList)
      ("cat".toList)).2.2.2 (by decide)⟩

/-- One entry of a category directory listing: its name and whether it is
a regular file (`os.path.isfile`). -/
structure DirEntry where
  name : Str
  isFile : Bool
deriving DecidableEq

/-- The accepted extension tuple `(".jpg", ".jpeg", ".png")` of
`get_media_requests`. -/
def ACCEPTED_EXTS : List Str :=
  [".jpg", ".jpeg", ".png"].map String.toList

/-- The membership test `f.lower().endswith((".jpg", ".jpeg", ".png"))`. -/
def acceptName (name : Str) : Bool :=
  ACCEPTED_EXTS.any (fun ext => ext.isSuffixOf (lowerStr name))

/-- pipelines.py lines 44-50: count the regular files in the animal
directory whose lowercased name ends with an accepted extension. -/
def countExisting (entries : List DirEntry) : Nat :=
  (entries.filter (fun e => e.isFile && acceptName e.name)).length

/-- get_images.py line 130: `len(list(folder.glob("*.jpg")))` — POSIX glob
matches names ending in the exact, case-sensitive suffix `.jpg`, and
matches directories as well as files. -/
def workerJpgCount (entries : List DirEntry) : Nat :=
  (entries.filter (fun e => (".jpg".toList).isSuffixOf e.name)).length

/-- The claim's counter, modelled from the spec:
`count_existing(category_dir, accepted_extensions)` counts regular files
whose suffix is in the accepted set compared case-insensitively. -/
def specCountExisting (entries : List DirEntry) (accepted : List Str) : Nat :=
  (entries.filter (fun e =>
    e.isFile && accepted.any
      (fun ext => (lowerStr ext).isSuffixOf (lowerStr e.name)))).length

/-- C8 counterexample: for a directory holding the single regular file
`a.JPG`, the worker's count (glob `*.jpg`, cited at get_images.py line
130) is 0 while the claimed case-insensitive count is 1 — the count is not
the same for `.JPG` as for `.jpg` at that call site. -/
theorem c8_counterexample :
    workerJpgCount [⟨"a.JPG".toList, true⟩] ≠
      specCountExisting [⟨"a.JPG".toList, true⟩] [".jpg".toList] := by
  decide

theorem lowerStr_append (a b : Str) : lowerStr (a ++ b) = lowerStr a ++ lowerStr b :=
  List.map_append asciiLower a b

theorem acceptName_ext (base : Str) (ext : Str)
    (h : ext ∈ ACCEPTED_EXTS) (hlow : lowerStr ext = ext) :
    acceptName (base ++ ext) = true := by
  unfold acceptName
  rw [List.any_eq_true]
  refine ⟨ext, h, ?_⟩
  rw [List.isSuffixOf_iff_suffix, lowerStr_append, hlow]
  exact List.suffix_append _ _

theorem filter_eq_nil_of_all {α : Type} (p : α → Bool) (l : List α)
    (h : ∀ a ∈ l, p a = false) : l.filter p = [] := by
  induction l with
  | nil => rfl
  | cons a l ih =>
    rw [List.filter_cons, if_neg (by simp [h a (List.mem_cons_self a l)])]
    exact ih fun a ha => h a (List.mem_cons_of_mem _ ha)

/-- C8 (amended): the pipeline's capacity counter
(`get_media_requests`, pipelines.py lines 44-50) counts exactly the
regular files whose extension is in the accepted set compared
case-insensitively — a `.JPG` name counts the same as `.jpg`, directories
are ignored — but the worker's reported count (get_images.py line 130)
uses `glob("*.jpg")`, which is case-sensitive: it counts `a.jpg` and not
`a.JPG`. -/
theorem c8_pipeline_count_case_insensitive (entries : List DirEntry) (base : Str) :
    countExisting entries = specCountExisting entries ACCEPTED_EXTS ∧
    countExisting (⟨base ++ ['.', 'J', 'P', 'G'], true⟩ :: entries) =
      countExisting (⟨base ++ ['.', 'j', 'p', 'g'], true⟩ :: entries) ∧
    ((∀ e ∈ entries, e.isFile = false) → countExisting entries = 0) ∧
    workerJpgCount [⟨"a.JPG".toList, true⟩] = 0 ∧
    workerJpgCount [⟨"a.jpg".toList, true⟩] = 1 := by
  refine ⟨?_, ?_, ?_, by decide, by decide⟩
  · unfold countExisting specCountExisting acceptName
    rw [List.filter_congr]
    intro e _
    have h1 : lowerStr ['.', 'j', 'p', 'g'] = ['.', 'j', 'p', 'g'] := by decide
    have h2 : lowerStr ['.', 'j', 'p', 'e', 'g'] = ['.', 'j', 'p', 'e', 'g'] := by
      decide
    have h3 : lowerStr ['.', 'p', 'n', 'g'] = ['.', 'p', 'n', 'g'] := by decide
    simp [ACCEPTED_EXTS, h1, h2, h3]
  · have hJ : acceptName (base ++ ['.', 'J', 'P', 'G']) = true := by
      unfold acceptName
      rw [List.any_eq_true]
      refine ⟨['.', 'j', 'p', 'g'], by simp [ACCEPTED_EXTS], ?_⟩
      rw [List.isSuffixOf_iff_suffix, lowerStr_append]
      have hlow : lowerStr ['.', 'J', 'P', 'G'] = ['.', 'j', 'p', 'g'] := by decide
      rw [hlow]
      exact List.suffix_append _ _
    have hj : acceptName (base ++ ['.', 'j', 'p', 'g']) = true :=
      acceptName_ext base ['.', 'j', 'p', 'g'] (by simp [ACCEPTED_EXTS]) (by decide)
    unfold countExisting
    rw [List.filter_cons, List.filter_cons]
    simp [hJ, hj]
  · intro h
    unfold countExisting
    rw [filter_eq_nil_of_all]
    · rfl
    · intro e he
      simp [h e he]

/-- C8 amended-claim witness: a directory entry that is not a regular file
is never counted by the pipeline counter. -/
theorem c8_pipeline_count_case_insensitive_witness :
    countExisting [⟨"d.jpg".toList, false⟩] = 0 :=
  (c8_pipeline_count_case_insensitive [⟨"d.jpg".toList, false⟩]
    ("x".toList)).2.2.1 (by decide)

/-- The round-robin loop of `_partition_list` (run_bing_scraper.py lines
116-118): starting from `chunks = [[] for _ in range(n)]`, run
`chunks[i % n].append(x)` for each `(i, x)` of `enumerate(items)`. -/
def rrLoop {α : Type} (n : Nat) : List (List α) → Nat → List α → List (List α)
  | chunks, _, [] => chunks
  | chunks, i, x :: rest =>
    rrLoop n (chunks.set (i % n) (chunks.getD (i % n) [] ++ [x])) (i + 1) rest

/-- `_partition_list(items, n)` (run_bing_scraper.py lines 96-119). -/
def _partition_list {α : Type} (items : List α) (n : Int) : List (List α) :=
  if n ≤ 0 then (if items.isEmpty then [] else [items])
  else if (items.length : Int) ≤ n then items.map (fun x => [x])
  else rrLoop n.toNat (List.replicate n.toNat []) 0 items

/-- The contents of round-robin chunk `j`: the elements of `items` whose
running index (starting at `i`) is congruent to `j` modulo `n`. -/
def chunkOf {α : Type} (n j : Nat) : Nat → List α → List α
  | _, [] => []
  | i, x :: rest =>
    if i % n = j then x :: chunkOf n j (i + 1) rest else chunkOf n j (i + 1) rest

theorem chunkOf_cons {α : Type} (n j i : Nat) (x : α) (rest : List α) :
    chunkOf n j i (x :: rest) =
      if i % n = j then x :: chunkOf n j (i + 1) rest
      else chunkOf n j (i + 1) rest := rfl

theorem rrLoop_cons {α : Type} (n : Nat) (chunks : List (List α)) (i : Nat)
    (x : α) (rest : List α) :
    rrLoop n chunks i (x :: rest) =
      rrLoop n (chunks.set (i % n) (chunks.getD (i % n) [] ++ [x])) (i + 1) rest :=
  rfl

theorem rrLoop_length {α : Type} (n : Nat) (items : List α) :
    ∀ (chunks : List (List α)) (i : Nat),
      (rrLoop n chunks i items).length = chunks.length := by
  induction items with
  | nil => intro chunks i; rfl
  | cons x rest ih =>
    intro chunks i
    rw [rrLoop_cons, ih, List.length_set]

theorem rrLoop_getD {α : Type} (n : Nat) (items : List α) :
    ∀ (chunks : List (List α)) (i j : Nat), j < chunks.length →
      (rrLoop n chunks i items).getD j [] =
        chunks.getD j [] ++ chunkOf n j i items := by
  induction items with
  | nil =>
    intro chunks i j _
    show chunks.getD j [] = chunks.getD j [] ++ chunkOf n j i []
    simp [chunkOf]
  | cons x rest ih =>
    intro chunks i j hj
    rw [rrLoop_cons, chunkOf_cons,
      ih _ (i + 1) j (by rwa [List.length_set])]
    by_cases hij : i % n = j
    · subst hij
      rw [if_pos rfl, List.getD_eq_getElem?_getD, List.getElem?_set_self hj]
      simp
    · rw [if_neg hij, List.getD_eq_getElem?_getD, List.getElem?_set_ne hij,
        ← List.getD_eq_getElem?_getD]

theorem chunkOf_sublist {α : Type} (n j : Nat) (items : List α) :
    ∀ i, (chunkOf n j i items).Sublist items := by
  induction items with
  | nil => intro i; exact List.Sublist.refl []
  | cons x rest ih =>
    intro i
    rw [chunkOf_cons]
    by_cases hij : i % n = j
    · rw [if_pos hij]
      exact (ih (i + 1)).cons₂ x
    · rw [if_neg hij]
      exact (ih (i + 1)).cons x

theorem chunkOf_ne_nil {α : Type} (n j : Nat) (items : List α) :
    ∀ (i k : Nat), k < items.length → (i + k) % n = j →
      chunkOf n j i items ≠ [] := by
  induction items with
  | nil => intro i k hk _; exact absurd hk (by simp)
  | cons x rest ih =>
    intro i k hk hj
    rw [chunkOf_cons]
    by_cases hij : i % n = j
    · rw [if_pos hij]
      simp
    · rw [if_neg hij]
      cases k with
      | zero =>
        rw [Nat.add_zero] at hj
        exact absurd hj hij
      | succ k' =>
        refine ih (i + 1) k' (by simpa [Nat.succ_lt_succ_iff] using hk) ?_
        rw [show i + 1 + k' = i + (k' + 1) from by omega]
        exact hj

theorem mem_chunkOf_of_mem {α : Type} (n : Nat) (hn : 0 < n) (items : List α) :
    ∀ (i : Nat) (x : α), x ∈ items →
      ∃ j, j < n ∧ x ∈ chunkOf n j i items := by
  induction items with
  | nil => intro i x hx; exact absurd hx (List.not_mem_nil x)
  | cons y rest ih =>
    intro i x hx
    rcases List.mem_cons.mp hx with rfl | hx'
    · refine ⟨i % n, Nat.mod_lt i hn, ?_⟩
      rw [chunkOf_cons, if_pos rfl]
      exact List.mem_cons_self _ _
    · obtain ⟨j, hj, hmem⟩ := ih (i + 1) x hx'
      refine ⟨j, hj, ?_⟩
      rw [chunkOf_cons]
      by_cases hij : i % n = j
      · rw [if_pos hij]
        exact List.mem_cons_of_mem _ hmem
      · rw [if_neg hij]
        exact hmem

theorem chunkOf_append {α : Type} (n j : Nat) (items : List α) :
    ∀ (extra : List α) (i : Nat),
      chunkOf n j i (items ++ extra) =
        chunkOf n j i items ++ chunkOf n j (i + items.length) extra := by
  induction items with
  | nil => intro extra i; simp [chunkOf]
  | cons x rest ih =>
    intro extra i
    rw [List.cons_append, chunkOf_cons, chunkOf_cons, ih extra (i + 1),
      show i + 1 + rest.length = i + (x :: rest).length from by
        simp [List.length_cons]
        omega]
    by_cases hij : i % n = j
    · rw [if_pos hij, if_pos hij, List.cons_append]
    · rw [if_neg hij, if_neg hij]

theorem chunkOf_singleton {α : Type} (n j m : Nat) (x : α) :
    (chunkOf n j m [x]).length = if m % n = j then 1 else 0 := by
  rw [show ([x] : List α) = x :: [] from rfl, chunkOf_cons]
  split <;> simp [chunkOf]

theorem succ_mod_eq (L n : Nat) (hn : 0 < n) :
    (L + 1) % n = if L % n + 1 = n then 0 else L % n + 1 := by
  rcases Nat.lt_or_ge 1 n with h2 | h2
  · rw [Nat.add_mod, Nat.mod_eq_of_lt h2]
    have hr : L % n < n := Nat.mod_lt L hn
    by_cases hc : L % n + 1 = n
    · rw [if_pos hc, hc, Nat.mod_self]
    · rw [if_neg hc, Nat.mod_eq_of_lt (by omega)]
  · have h1 : n = 1 := by omega
    subst h1
    simp [Nat.mod_one]

theorem chunkOf_lengths_balanced {α : Type} (n : Nat) (hn : 0 < n) (items : List α) :
    ∃ q, ∀ j, j < n →
      (chunkOf n j 0 items).length =
        q + if j < items.length % n then 1 else 0 := by
  induction items using List.reverseRecOn with
  | nil => exact ⟨0, fun j _ => by simp [chunkOf]⟩
  | append_singleton rest x ih =>
    obtain ⟨q, hq⟩ := ih
    have hsucc := succ_mod_eq rest.length n hn
    have hr : rest.length % n < n := Nat.mod_lt rest.length hn
    by_cases hcase : rest.length % n + 1 = n
    · refine ⟨q + 1, fun j hj => ?_⟩
      rw [chunkOf_append, List.length_append, hq j hj, chunkOf_singleton,
        List.length_append, List.length_cons, List.length_nil, hsucc,
        if_pos hcase, Nat.zero_add]
      split_ifs <;> omega
    · refine ⟨q, fun j hj => ?_⟩
      rw [chunkOf_append, List.length_append, hq j hj, chunkOf_singleton,
        List.length_append, List.length_cons, List.length_nil, hsucc,
        if_neg hcase, Nat.zero_add]
      split_ifs <;> omega

theorem chunkOf_disjoint {α : Type} (n j k : Nat) (hjk : j ≠ k) (items : List α) :
    ∀ (i : Nat), items.Nodup →
      ∀ x, x ∈ chunkOf n j i items → x ∈ chunkOf n k i items → False := by
  induction items with
  | nil => intro i _ x hx _; exact absurd hx (List.not_mem_nil x)
  | cons y rest ih =>
    intro i hnd x hxj hxk
    obtain ⟨hy, hndr⟩ := List.nodup_cons.mp hnd
    rw [chunkOf_cons] at hxj hxk
    by_cases hij : i % n = j
    · rw [if_pos hij] at hxj
      rw [if_neg (fun hik => hjk (hij.symm.trans hik))] at hxk
      rcases List.mem_cons.mp hxj with rfl | hxj'
      · exact hy ((chunkOf_sublist n k rest (i + 1)).subset hxk)
      · exact ih (i + 1) hndr x hxj' hxk
    · rw [if_neg hij] at hxj
      by_cases hik : i % n = k
      · rw [if_pos hik] at hxk
        rcases List.mem_cons.mp hxk with rfl | hxk'
        · exact hy ((chunkOf_sublist n j rest (i + 1)).subset hxj)
        · exact ih (i + 1) hndr x hxj hxk'
      · rw [if_neg hik] at hxk
        exact ih (i + 1) hndr x hxj hxk

example : _partition_list [0, 1, 2, 3, 4] (2 : Int) = [[0, 2, 4], [1, 3]] := by
  decide

example : _partition_list ([] : List Nat) (-3 : Int) = [] := by decide

example : _partition_list [0, 1] (7 : Int) = [[0], [1]] := by decide

/-- C3: `_partition_list(items, n)` yields, for `n <= 0`, one group equal
to the full input (no groups on empty input); for `n >= len(items)`, one
singleton group per item; and for `0 < n < len(items)`, exactly `n`
non-empty groups, each order-preserving (a sublist of the input), whose
union as a set is the input, pairwise disjoint when the input has no
duplicates, and whose sizes differ by at most 1. -/
theorem c3_partition_balanced {α : Type} (items : List α) (n : Int) :
    (n ≤ 0 → _partition_list items n = if items.isEmpty then [] else [items]) ∧
    ((items.length : Int) ≤ n → _partition_list items n = items.map fun x => [x]) ∧
    (0 < n → n < (items.length : Int) →
      (_partition_list items n).length = n.toNat ∧
      (∀ c ∈ _partition_list items n, c ≠ [] ∧ c.Sublist items) ∧
      (∀ x, x ∈ items ↔ ∃ c ∈ _partition_list items n, x ∈ c) ∧
      (∀ c₁ ∈ _partition_list items n, ∀ c₂ ∈ _partition_list items n,
        c₁.length ≤ c₂.length + 1) ∧
      (items.Nodup →
        (_partition_list items n).Pairwise
          (fun c₁ c₂ => ∀ x, x ∈ c₁ → x ∈ c₂ → False))) := by
  refine ⟨?_, ?_, ?_⟩
  · intro h
    unfold _partition_list
    rw [if_pos h]
  · intro h
    unfold _partition_list
    by_cases h0 : n ≤ 0
    · rw [if_pos h0]
      have hlen : items.length = 0 := by omega
      have hnil : items = [] := List.eq_nil_of_length_eq_zero hlen
      subst hnil
      rfl
    · rw [if_neg h0, if_pos h]
  · intro hn hlen
    have hP : _partition_list items n =
        rrLoop n.toNat (List.replicate n.toNat []) 0 items := by
      unfold _partition_list
      rw [if_neg (by omega), if_neg (by omega)]
    have hN0 : 0 < n.toNat := by omega
    have hNlen : n.toNat < items.length := by omega
    have hlenP : (_partition_list items n).length = n.toNat := by
      rw [hP, rrLoop_length, List.length_replicate]
    have hchunk : ∀ j, j < n.toNat →
        (_partition_list items n).getD j [] = chunkOf n.toNat j 0 items := by
      intro j hj
      rw [hP, rrLoop_getD _ _ _ 0 j (by rwa [List.length_replicate])]
      simp [List.getD_eq_getElem?_getD, List.getElem?_replicate, hj]
    have hmemP : ∀ c, c ∈ _partition_list items n ↔
        ∃ j, ∃ _ : j < n.toNat, chunkOf n.toNat j 0 items = c := by
      intro c
      rw [List.mem_iff_getElem]
      constructor
      · rintro ⟨j, hj, rfl⟩
        have hj' : j < n.toNat := by rwa [hlenP] at hj
        exact ⟨j, hj', by rw [← hchunk j hj', List.getD_eq_getElem _ _ hj]⟩
      · rintro ⟨j, hj, rfl⟩
        refine ⟨j, by rwa [hlenP], ?_⟩
        rw [← hchunk j hj]
        exact (List.getD_eq_getElem _ _ _).symm
    refine ⟨hlenP, ?_, ?_, ?_, ?_⟩
    · intro c hc
      obtain ⟨j, hj, rfl⟩ := (hmemP c).mp hc
      refine ⟨?_, chunkOf_sublist _ _ _ 0⟩
      refine chunkOf_ne_nil n.toNat j items 0 j (by omega) ?_
      rw [Nat.zero_add]
      exact Nat.mod_eq_of_lt hj
    · intro x
      constructor
      · intro hx
        obtain ⟨j, hj, hmem⟩ := mem_chunkOf_of_mem n.toNat hN0 items 0 x hx
        exact ⟨chunkOf n.toNat j 0 items, (hmemP _).mpr ⟨j, hj, rfl⟩, hmem⟩
      · rintro ⟨c, hc, hxc⟩
        obtain ⟨j, hj, rfl⟩ := (hmemP c).mp hc
        exact (chunkOf_sublist _ _ _ 0).subset hxc
    · intro c₁ hc₁ c₂ hc₂
      obtain ⟨j, hj, rfl⟩ := (hmemP c₁).mp hc₁
      obtain ⟨k, hk, rfl⟩ := (hmemP c₂).mp hc₂
      obtain ⟨q, hq⟩ := chunkOf_lengths_balanced n.toNat hN0 items
      rw [hq j hj, hq k hk]
      split_ifs <;> omega
    · intro hnd
      rw [List.pairwise_iff_getElem]
      intro i j hi hj hij x hxi hxj
      have hi' : i < n.toNat := by rwa [hlenP] at hi
      have hj' : j < n.toNat := by rwa [hlenP] at hj
      have hgi : (_partition_list items n)[i] = chunkOf n.toNat i 0 items := by
        rw [← hchunk i hi']
        exact (List.getD_eq_getElem _ _ hi).symm
      have hgj : (_partition_list items n)[j] = chunkOf n.toNat j 0 items := by
        rw [← hchunk j hj']
        exact (List.getD_eq_getElem _ _ hj).symm
      rw [hgi] at hxi
      rw [hgj] at hxj
      exact chunkOf_disjoint n.toNat i j (by omega) items 0 hnd x hxi hxj

/-- C3 witness: partitioning three categories into 2 groups gives 2
groups, and `n = 0` returns the single full group. -/
theorem c3_partition_balanced_witness :
    (_partition_list ["a".toList, "b".toList, "c".toList] (2 : Int)).length =
      (2 : Int).toNat ∧
    _partition_list ["a".toList, "b".toList, "c".toList] (0 : Int) =
      [["a".toList, "b".toList, "c".toList]] := by
  constructor
  · exact ((c3_partition_balanced ["a".toList, "b".toList, "c".toList] 2).2.2
      (by decide) (by decide)).1
  · have h := (c3_partition_balanced ["a".toList, "b".toList, "c".toList] 0).1
      (by decide)
    simpa using h

end PlushScraper
